import Mathlib

/-!
Shallow embedding in Lean 4 of the change-tracking and patch-reconciliation
core of the `currentjs/gen` repository (commit utilities and generation
registry), together with proofs of the specification claims about it.

Texts are modelled as Lean `String` values; the JavaScript
`split(/\r?\n/)` is modelled character by character on `String.data`.
Line indices and counts are natural numbers; the running offset of the
exact applier, which can be negative, is an integer.  The JavaScript
runtime exception thrown by `h.ctxBeforeOld!.length` when the field is
absent is modelled by `Except.error ()`.
-/

namespace Gen

/-! ## Text splitting and joining -/

/-- Prepend a character to the first line of a nonempty line list. -/
def consHead (c : Char) : List (List Char) → List (List Char)
  | [] => [[c]]
  | l :: ls => (c :: l) :: ls

/-- Character-level model of the JavaScript `split(/\r?\n/)`:
a separator is either the two-character sequence CR LF or a single LF;
a CR not followed by LF is ordinary text. -/
def splitRNAux : List Char → List (List Char)
  | [] => [[]]
  | [c] => if c = '\n' then [[], []] else [[c]]
  | c :: r2 :: rest2 =>
    if c = '\n' then [] :: splitRNAux (r2 :: rest2)
    else if c = '\r' then
      if r2 = '\n' then [] :: splitRNAux rest2
      else consHead c (splitRNAux (r2 :: rest2))
    else consHead c (splitRNAux (r2 :: rest2))

/-- Split a text into lines, as the source does with `split(/\r?\n/)`. -/
def splitRN (s : String) : List String :=
  (splitRNAux s.data).map (fun l => ⟨l⟩)

/-- Character-level join with LF. -/
def joinLFC : List (List Char) → List Char
  | [] => []
  | [l] => l
  | l :: l2 :: ls => l ++ '\n' :: joinLFC (l2 :: ls)

/-- Join lines with LF, as the source does with `join('\n')`. -/
def joinLF (ls : List String) : String :=
  ⟨joinLFC (ls.map String.data)⟩

/-- Replace every CR LF pair by LF, leaving all other characters alone. -/
def replRN : List Char → List Char
  | [] => []
  | [c] => [c]
  | c :: r2 :: rest2 =>
    if c = '\r' then
      if r2 = '\n' then '\n' :: replRN rest2 else c :: replRN (r2 :: rest2)
    else c :: replRN (r2 :: rest2)

/-- The text with every CR LF line separator replaced by LF. -/
def replaceCRLF (s : String) : String := ⟨replRN s.data⟩

/-- Whether the character list contains the two-character sequence CR LF. -/
def containsRN : List Char → Bool
  | [] => false
  | [_] => false
  | c :: r2 :: rest2 =>
    if c = '\r' then
      if r2 = '\n' then true else containsRN (r2 :: rest2)
    else containsRN (r2 :: rest2)

/-- Whether the text contains the two-character sequence CR LF. -/
def containsCRLF (s : String) : Bool := containsRN s.data

/-! ## The hunk data model -/

/-- One contiguous edit region, mirroring the `DiffHunk` type of the source.
The two context fields are optional in the source (they may be absent on
hunks read back from JSON), hence `Option` here. -/
structure Hunk (α : Type) where
  oldStart : Nat
  oldLines : Nat
  newStart : Nat
  newLines : Nat
  oldContent : List α
  newContent : List α
  ctxBeforeOld : Option (List α) := none
  ctxAfterOld : Option (List α) := none
deriving DecidableEq

/-- The slice `l.slice(s, e)` of JavaScript arrays (clamping at both ends). -/
def slice (l : List α) (s e : Nat) : List α := (l.drop s).take (e - s)

/-! ## The diff engine -/

/-- Fueled evaluation of the suffix LCS-length table entry `dp[i][j]`:
`lcsFuel fuel xs ys` equals the length of a longest common subsequence of
`xs` and `ys` whenever `fuel ≥ xs.length + ys.length`; the fuel only makes
the recursion structural. -/
def lcsFuel [DecidableEq α] : Nat → List α → List α → Nat
  | 0, _, _ => 0
  | _ + 1, [], _ => 0
  | _ + 1, _, [] => 0
  | fuel + 1, x :: xs, y :: ys =>
    if x = y then lcsFuel fuel xs ys + 1
    else max (lcsFuel fuel xs (y :: ys)) (lcsFuel fuel (x :: xs) ys)

/-- The entry `dp[i][j]` of the LCS matrix built by `lcsMatrix` in the
source: the LCS length of the suffixes. -/
def lcs [DecidableEq α] (xs ys : List α) : Nat :=
  lcsFuel (xs.length + ys.length) xs ys

/-- A fresh pending hunk started at position `(i, j)`, as in the source. -/
def freshPending (i j : Nat) : Hunk α :=
  { oldStart := i, oldLines := 0, newStart := j, newLines := 0,
    oldContent := [], newContent := [] }

/-- Extend a pending hunk by one deleted old line, as in the source. -/
def pushOld (p : Hunk α) (x : α) : Hunk α :=
  { p with oldLines := p.oldLines + 1, oldContent := p.oldContent ++ [x] }

/-- Extend a pending hunk by one inserted new line, as in the source. -/
def pushNew (p : Hunk α) (y : α) : Hunk α :=
  { p with newLines := p.newLines + 1, newContent := p.newContent ++ [y] }

/-- The tail hunk built from the unmatched remainders after the main loop
of `computeHunks` exits at `(i, j)`. -/
def tailHunk (a b : List α) (i j : Nat) : Hunk α :=
  { oldStart := i, oldLines := a.length - i,
    newStart := j, newLines := b.length - j,
    oldContent := a.drop i, newContent := b.drop j }

/-- Merging the tail hunk into an adjacent pending hunk, as in the
source. -/
def mergeTail (p t : Hunk α) : Hunk α :=
  { p with
    oldLines := p.oldLines + t.oldLines,
    newLines := p.newLines + t.newLines,
    oldContent := p.oldContent ++ t.oldContent,
    newContent := p.newContent ++ t.newContent }

/-- Code run after the main loop of `computeHunks` exits at `(i, j)`:
build the tail hunk from the unmatched remainders, merge it into the
pending hunk when adjacent, and flush. -/
def finishWalk (a b : List α) (i j : Nat) (pending : Option (Hunk α)) :
    List (Hunk α) :=
  if i < a.length ∨ j < b.length then
    if (tailHunk a b i j).oldLines > 0 ∨ (tailHunk a b i j).newLines > 0 then
      match pending with
      | some p =>
        if p.oldStart + p.oldLines = (tailHunk a b i j).oldStart ∧
            p.newStart + p.newLines = (tailHunk a b i j).newStart then
          [mergeTail p (tailHunk a b i j)]
        else [p, tailHunk a b i j]
      | none => [tailHunk a b i j]
    else
      match pending with
      | some p => [p]
      | none => []
  else
    match pending with
    | some p => [p]
    | none => []

/-- The main alignment walk of `computeHunks`.  The fuel argument makes the
while loop structural; every call below supplies at least
`(a.length - i) + (b.length - j)` fuel, and when the fuel reaches zero the
loop guard is false anyway, so the fueled function agrees with the loop. -/
def walkHunks [DecidableEq α] (a b : List α) :
    Nat → Nat → Nat → Option (Hunk α) → List (Hunk α)
  | 0, i, j, pending => finishWalk a b i j pending
  | fuel + 1, i, j, pending =>
    if hij : i < a.length ∧ j < b.length then
      if a.get ⟨i, hij.1⟩ = b.get ⟨j, hij.2⟩ then
        match pending with
        | some p => p :: walkHunks a b fuel (i + 1) (j + 1) none
        | none => walkHunks a b fuel (i + 1) (j + 1) none
      else if lcs (a.drop (i + 1)) (b.drop j) ≥ lcs (a.drop i) (b.drop (j + 1)) then
        walkHunks a b fuel (i + 1) j
          (some (pushOld (pending.getD (freshPending i j)) (a.get ⟨i, hij.1⟩)))
      else
        walkHunks a b fuel i (j + 1)
          (some (pushNew (pending.getD (freshPending i j)) (b.get ⟨j, hij.2⟩)))
    else finishWalk a b i j pending

/-- Attach up to `CONTEXT = 3` lines of old-text context around a hunk,
as the final `map` of `computeHunks` does. -/
def attachCtx (a : List α) (h : Hunk α) : Hunk α :=
  { h with
    ctxBeforeOld := some (slice a (h.oldStart - 3) h.oldStart),
    ctxAfterOld := some (slice a (h.oldStart + h.oldLines)
      (min a.length (h.oldStart + h.oldLines + 3))) }

/-- Line-level `computeHunks`. -/
def computeHunksL [DecidableEq α] (a b : List α) : List (Hunk α) :=
  (walkHunks a b (a.length + b.length) 0 0 none).map (attachCtx a)

/-- The `computeHunks` function of the source. -/
def computeHunks (oldStr newStr : String) : List (Hunk String) :=
  computeHunksL (splitRN oldStr) (splitRN newStr)

/-! ## The exact applier -/

/-- The loop of `applyHunksToBase`: splice each hunk at its recorded
position shifted by the running offset, with the bounds checks of the
source. -/
def applyHunksLines [DecidableEq α] :
    List α → List (Hunk α) → Int → Option (List α)
  | lines, [], _ => some lines
  | lines, h :: hs, offset =>
    let start : Int := (h.oldStart : Int) + offset
    let stop : Int := start + (h.oldLines : Int)
    if start < 0 ∨ start > (lines.length : Int) ∨ stop < 0 ∨
        stop > (lines.length : Int) then none
    else
      let s := start.toNat
      applyHunksLines
        (lines.take s ++ h.newContent ++ lines.drop (s + h.oldLines)) hs
        (offset + (h.newContent.length : Int) - (h.oldLines : Int))

/-- The `applyHunksToBase` function of the source. -/
def applyHunksToBase (base : String) (hunks : List (Hunk String)) :
    Option String :=
  (applyHunksLines (splitRN base) hunks 0).map joinLF

/-! ## The fuzzy applier -/

/-- The inner match loop of `findSubsequence`: does `needle` occur at the
head of the list. -/
def matchAt [DecidableEq α] : List α → List α → Bool
  | [], _ => true
  | _ :: _, [] => false
  | x :: xs, y :: ys => x = y && matchAt xs ys

/-- The search loop of `findSubsequence`, walking suffixes of the haystack
and counting positions from `i`. -/
def subseqSearch [DecidableEq α] (needle : List α) : List α → Nat → Option Nat
  | [], _ => none
  | c :: rest, i =>
    if matchAt needle (c :: rest) then some i
    else subseqSearch needle rest (i + 1)

/-- The `findSubsequence` function of the source; `none` models the
returned `-1`.  An empty needle is found at `fromIndex` unconditionally. -/
def findSubsequence [DecidableEq α] (hay needle : List α) (fromIndex : Nat) :
    Option Nat :=
  if needle.length = 0 then some fromIndex
  else subseqSearch needle (hay.drop fromIndex) fromIndex

/-- The loop body of `applyHunksToAnyBase` for one hunk with
`oldLines > 0` and nonempty `oldContent`: locate `oldContent` directly,
then via the before-context anchor, then via the after-context anchor.
`Except.error ()` models the runtime exception thrown by
`h.ctxBeforeOld!.length` when `ctxBeforeOld` is absent. -/
def locateOld [DecidableEq α] (lines : List α) (h : Hunk α)
    (searchFrom : Nat) : Except Unit (Option Nat) :=
  let idx0 := findSubsequence lines h.oldContent searchFrom
  let idx1 :=
    match idx0 with
    | some v => some v
    | none =>
      match h.ctxBeforeOld with
      | some ctxB =>
        if ctxB.length > 0 then
          match findSubsequence lines ctxB (searchFrom - ctxB.length) with
          | some beforeIdx =>
            findSubsequence lines h.oldContent (beforeIdx + ctxB.length)
          | none => none
        else none
      | none => none
  match idx1 with
  | some v => Except.ok (some v)
  | none =>
    match h.ctxAfterOld with
    | some ctxA =>
      if ctxA.length > 0 then
        match findSubsequence lines ctxA searchFrom with
        | some afterIdx =>
          match h.ctxBeforeOld with
          | none => Except.error ()
          | some ctxB =>
            let windowStart := afterIdx - h.oldLines - ctxB.length
            match findSubsequence (slice lines windowStart afterIdx)
                h.oldContent 0 with
            | some v => Except.ok (some (v + windowStart))
            | none => Except.ok none
        | none => Except.ok none
      else Except.ok none
    | none => Except.ok none

/-- The insertion-point computation of `applyHunksToAnyBase` for a hunk
taken through the insertion branch, before clamping. -/
def insertPoint [DecidableEq α] (lines : List α) (h : Hunk α)
    (searchFrom : Nat) : Nat :=
  match h.ctxBeforeOld with
  | some ctxB =>
    if ctxB.length > 0 then
      match findSubsequence lines ctxB (searchFrom - ctxB.length) with
      | some beforeIdx => beforeIdx + ctxB.length
      | none => h.newStart
    else
      match h.ctxAfterOld with
      | some ctxA =>
        if ctxA.length > 0 then
          match findSubsequence lines ctxA searchFrom with
          | some afterIdx => afterIdx
          | none => h.newStart
        else h.newStart
      | none => h.newStart
  | none =>
    match h.ctxAfterOld with
    | some ctxA =>
      if ctxA.length > 0 then
        match findSubsequence lines ctxA searchFrom with
        | some afterIdx => afterIdx
        | none => h.newStart
      else h.newStart
    | none => h.newStart

/-- The loop of `applyHunksToAnyBase`. -/
def applyAnyLines [DecidableEq α] :
    List α → List (Hunk α) → Nat → Except Unit (Option (List α))
  | lines, [], _ => Except.ok (some lines)
  | lines, h :: hs, searchFrom =>
    if h.oldLines > 0 ∧ h.oldContent.length > 0 then
      match locateOld lines h searchFrom with
      | Except.error () => Except.error ()
      | Except.ok none => Except.ok none
      | Except.ok (some idx) =>
        applyAnyLines
          (lines.take idx ++ h.newContent ++ lines.drop (idx + h.oldLines))
          hs (idx + h.newContent.length)
    else
      let raw := insertPoint lines h searchFrom
      let insertAt := if raw > lines.length then lines.length else raw
      applyAnyLines
        (lines.take insertAt ++ h.newContent ++ lines.drop insertAt) hs
        (insertAt + h.newContent.length)

/-- The `applyHunksToAnyBase` function of the source.  `Except.error ()`
models the runtime exception on an absent `ctxBeforeOld` field. -/
def applyHunksToAnyBase (base : String) (hunks : List (Hunk String)) :
    Except Unit (Option String) :=
  (applyAnyLines (splitRN base) hunks 0).map (Option.map joinLF)

/-! ## The legacy whole-file line-diff format -/

/-- The per-line parsing of `parseDiff`: the first character is the op
type (anything other than space, plus and minus is normalized to space,
as is an absent first character), and the content drops the type
character and one following space when present. -/
def parseDiffOp (l : List Char) : Char × List Char :=
  let t := l.headD ' '
  let t := if t = ' ' ∨ t = '+' ∨ t = '-' then t else ' '
  let content :=
    if l.length > 1 ∧ l.get? 1 = some ' ' then l.drop 2 else l.drop 1
  (t, content)

/-- The loop of `applyDiffToBase`, walking the parsed ops with a cursor
into the base lines. -/
def applyDiffLoop : List (Char × List Char) → List (List Char) → Nat →
    List (List Char) → Option (List (List Char))
  | [], baseLines, i, result => some (result ++ baseLines.drop i)
  | (t, line) :: ops, baseLines, i, result =>
    if t = ' ' then
      if baseLines.get? i = some line then
        applyDiffLoop ops baseLines (i + 1) (result ++ [line])
      else none
    else if t = '+' then
      if baseLines.get? i = some line then applyDiffLoop ops baseLines (i + 1) result
      else none
    else applyDiffLoop ops baseLines i (result ++ [line])

/-- The `applyDiffToBase` function of the source (legacy format). -/
def applyDiffToBase (base diff : String) : Option String :=
  let baseLines := (splitRNAux base.data)
  let ops := (splitRNAux diff.data).map parseDiffOp
  (applyDiffLoop ops baseLines 0 []).map (fun ls => ⟨joinLFC ls⟩)

/-! ## The commit store -/

/-- One per-file entry of a stored commit record, mirroring the fields of
`StoredCommit`.  Optional JSON fields are `Option`. -/
structure CommitFileEntry where
  file : String
  status : String
  oldHash : Option String := none
  newHash : Option String := none
  diff : Option String := none
  format : Option String := none
  baseHash : Option String := none
  resultHash : Option String := none
  hunks : Option (List (Hunk String)) := none
deriving DecidableEq

/-- One stored commit record.  The `createdAt` field models the numeric
timestamp obtained from the `createdAt` JSON field: `none` stands for an
absent or unparseable value, which the source turns into `0` via
`parseCommitTimestamp` (which always returns `0`) and the `|| 0`
coercion. -/
structure StoredCommitRec where
  createdAt : Option Nat := none
  files : List CommitFileEntry
deriving DecidableEq

/-- One flattened `(createdAt, file, record)` tuple produced by
`loadAllCommitRecords`. -/
structure CommitTuple where
  createdAt : Nat
  file : String
  record : CommitFileEntry
deriving DecidableEq

/-- The `loadAllCommitRecords` function of the source, over the list of
commit files found in the commits directory: `none` models a file whose
JSON fails to parse (the `catch` ignores it).  Entries are flattened and
sorted ascending by `createdAt` with a stable sort, as `Array.sort` is. -/
def loadAllCommitRecords (raw : List (Option StoredCommitRec)) :
    List CommitTuple :=
  let results := (raw.filterMap id).flatMap
    (fun d => d.files.map
      (fun rec => { createdAt := d.createdAt.getD 0, file := rec.file,
                    record := rec : CommitTuple }))
  results.insertionSort (fun x y => x.createdAt ≤ y.createdAt)

/-! ## The registry and the reconciliation writer -/

/-- A registry entry, mirroring `RegistryEntry` of the source. -/
structure RegEntry where
  hash : String
  updatedAt : String
  diffFormat : Option String := none
  diffBaseHash : Option String := none
  diffResultHash : Option String := none
  diffHunks : Option (List (Hunk String)) := none
  diffUpdatedAt : Option String := none
deriving DecidableEq

/-- Look a key up in an association-list registry document. -/
def regLookup (reg : List (String × RegEntry)) (key : String) :
    Option RegEntry :=
  (reg.find? (fun kv => kv.1 = key)).map Prod.snd

/-- The `updateStoredHash` write: replace or insert the entry for `key`,
keeping its other fields and setting `hash` and `updatedAt`. -/
def updateStoredHash (reg : List (String × RegEntry)) (key h now : String) :
    List (String × RegEntry) :=
  let prev := (regLookup reg key).getD
    { hash := "", updatedAt := "" }
  let entry := { prev with hash := h, updatedAt := now }
  if (reg.find? (fun kv => kv.1 = key)).isSome then
    reg.map (fun kv => if kv.1 = key then (key, entry) else kv)
  else reg ++ [(key, entry)]

/-- The commit-file fallback of `tryApplyCommitsToGenerated`: scan the
flattened commit tuples for entries touching `rel` with status
`modified`, exact-apply the latest hunks-format entry whose `baseHash`
matches, else replay the latest matching legacy line diff. -/
def commitFallback (hash : String → String) (commits : List CommitTuple)
    (rel generatedContent : String) : Bool × String :=
  let baseHash := hash generatedContent
  let all := commits.filter
    (fun r => r.file = rel ∧ r.record.status = "modified")
  if all.isEmpty then (false, generatedContent)
  else
    let hunksCandidates := all.filter
      (fun r => r.record.format = some "hunks-v1" ∧
        r.record.baseHash = some baseHash ∧ r.record.hunks.isSome)
    let viaHunks :=
      match hunksCandidates.getLast? with
      | some latest =>
        applyHunksToBase generatedContent (latest.record.hunks.getD [])
      | none => none
    match viaHunks with
    | some merged => (true, merged)
    | none =>
      let legacyCandidates := all.filter
        (fun r => r.record.newHash = some baseHash ∧ r.record.diff.isSome)
      let viaLegacy :=
        match legacyCandidates.getLast? with
        | some latest =>
          applyDiffToBase generatedContent (latest.record.diff.getD "")
        | none => none
      match viaLegacy with
      | some merged => (true, merged)
      | none => (false, generatedContent)

/-- The `tryApplyCommitsToGenerated` function of the source, over the
loaded registry document and the flattened commit tuples.  The string
`rel` is the path of the file relative to the project root, and `hash`
models `computeContentHash`.  A crash of the fuzzy applier propagates as
`Except.error ()`. -/
def tryApplyCommitsToGenerated (hash : String → String)
    (reg : List (String × RegEntry)) (commits : List CommitTuple)
    (rel generatedContent : String) : Except Unit (Bool × String) :=
  let baseHash := hash generatedContent
  let viaRegistryE : Except Unit (Option String) :=
    match regLookup reg rel with
    | some e =>
      if e.diffFormat = some "hunks-v1" ∧ e.diffHunks.isSome then
        if e.diffBaseHash = some baseHash then
          Except.ok (applyHunksToBase generatedContent (e.diffHunks.getD []))
        else applyHunksToAnyBase generatedContent (e.diffHunks.getD [])
      else Except.ok none
    | none => Except.ok none
  match viaRegistryE with
  | Except.error e => Except.error e
  | Except.ok (some merged) => Except.ok (true, merged)
  | Except.ok none =>
    Except.ok (commitFallback hash commits rel generatedContent)

/-- The outcome of `writeGeneratedFile`. -/
inductive WriteResult where
  | written
  | skipped
  | unchanged
deriving DecidableEq

/-- The filesystem and registry state the writer touches, restricted to
one target path: the on-disk content of that path, the loaded registry
document, and the flattened commit log. -/
structure World where
  onDisk : Option String
  registry : List (String × RegEntry)
  commits : List CommitTuple
deriving DecidableEq

/-- The `writeGeneratedFile` function of the source, as a state-passing
function on `World`.  `hash` models `computeContentHash`, `rel` the path
relative to the project root, `promptAnswer` the answer the user would
give to the overwrite prompt, and `now` the timestamp
`new Date().toISOString()`.  A crash inside the fuzzy applier propagates
as `Except.error ()`. -/
def writeGeneratedFile (hash : String → String) (w : World)
    (rel contents : String) (force skipOnConflict promptAnswer : Bool)
    (now : String) : Except Unit (WriteResult × World) :=
  let newHash := hash contents
  match w.onDisk with
  | none =>
    Except.ok (WriteResult.written,
      { w with onDisk := some contents,
               registry := updateStoredHash w.registry rel newHash now })
  | some currentContent =>
    let storedHash := (regLookup w.registry rel).map RegEntry.hash
    let currentHash := hash currentContent
    if currentHash = newHash then Except.ok (WriteResult.unchanged, w)
    else
      let isUserModified := storedHash = none ∨ storedHash ≠ some currentHash
      if isUserModified ∧ force = false then
        match tryApplyCommitsToGenerated hash w.registry w.commits
            rel contents with
        | Except.error e => Except.error e
        | Except.ok applied =>
          if applied.1 then
            Except.ok (WriteResult.written,
              { w with onDisk := some applied.2,
                       registry := updateStoredHash w.registry rel newHash now })
          else if skipOnConflict then Except.ok (WriteResult.skipped, w)
          else if promptAnswer = false then Except.ok (WriteResult.skipped, w)
          else
            Except.ok (WriteResult.written,
              { w with onDisk := some contents,
                       registry := updateStoredHash w.registry rel newHash now })
      else
        Except.ok (WriteResult.written,
          { w with onDisk := some contents,
                   registry := updateStoredHash w.registry rel newHash now })

/-! ## Lemmas about splitting and joining -/

theorem splitRNAux_ne_nil (cs : List Char) : splitRNAux cs ≠ [] := by
  match cs with
  | [] => simp [splitRNAux]
  | [c] =>
    by_cases h : c = '\n' <;> simp [splitRNAux, h]
  | c :: r2 :: rest2 =>
    unfold splitRNAux
    split
    · simp
    · split
      · split
        · simp
        · cases h : splitRNAux (r2 :: rest2) <;> simp [consHead]
      · cases h : splitRNAux (r2 :: rest2) <;> simp [consHead]

theorem joinLFC_consHead (c : Char) (ls : List (List Char)) :
    joinLFC (consHead c ls) = c :: joinLFC ls := by
  match ls with
  | [] => simp [consHead, joinLFC]
  | [l] => simp [consHead, joinLFC]
  | l :: l2 :: ls => simp [consHead, joinLFC]

theorem joinLFC_cons_nil (ls : List (List Char)) (h : ls ≠ []) :
    joinLFC ([] :: ls) = '\n' :: joinLFC ls := by
  match ls with
  | [] => exact absurd rfl h
  | l :: ls => simp [joinLFC]

theorem joinLFC_splitRNAux (cs : List Char) :
    joinLFC (splitRNAux cs) = replRN cs := by
  match cs with
  | [] => rfl
  | [c] =>
    by_cases h : c = '\n'
    · subst h; rfl
    · simp [splitRNAux, replRN, joinLFC, h]
  | c :: r2 :: rest2 =>
    by_cases h1 : c = '\n'
    · subst h1
      have e1 : splitRNAux ('\n' :: r2 :: rest2) =
          [] :: splitRNAux (r2 :: rest2) := by simp [splitRNAux]
      have e2 : replRN ('\n' :: r2 :: rest2) =
          '\n' :: replRN (r2 :: rest2) := by simp [replRN]
      rw [e1, e2, joinLFC_cons_nil _ (splitRNAux_ne_nil _),
        joinLFC_splitRNAux (r2 :: rest2)]
    · by_cases h2 : c = '\r'
      · subst h2
        by_cases h3 : r2 = '\n'
        · subst h3
          have e1 : splitRNAux ('\r' :: '\n' :: rest2) =
              [] :: splitRNAux rest2 := by simp [splitRNAux]
          have e2 : replRN ('\r' :: '\n' :: rest2) =
              '\n' :: replRN rest2 := by simp [replRN]
          rw [e1, e2, joinLFC_cons_nil _ (splitRNAux_ne_nil _),
            joinLFC_splitRNAux rest2]
        · have e1 : splitRNAux ('\r' :: r2 :: rest2) =
              consHead '\r' (splitRNAux (r2 :: rest2)) := by
            simp [splitRNAux, h3]
          have e2 : replRN ('\r' :: r2 :: rest2) =
              '\r' :: replRN (r2 :: rest2) := by simp [replRN, h3]
          rw [e1, e2, joinLFC_consHead, joinLFC_splitRNAux (r2 :: rest2)]
      · have e1 : splitRNAux (c :: r2 :: rest2) =
            consHead c (splitRNAux (r2 :: rest2)) := by
          simp [splitRNAux, h1, h2]
        have e2 : replRN (c :: r2 :: rest2) =
            c :: replRN (r2 :: rest2) := by simp [replRN, h2]
        rw [e1, e2, joinLFC_consHead, joinLFC_splitRNAux (r2 :: rest2)]

theorem replRN_length_le (cs : List Char) :
    (replRN cs).length ≤ cs.length := by
  match cs with
  | [] => simp [replRN]
  | [c] => simp [replRN]
  | c :: r2 :: rest2 =>
    unfold replRN
    split
    · split
      · have := replRN_length_le rest2
        simp
        omega
      · have := replRN_length_le (r2 :: rest2)
        simp at this ⊢
        omega
    · have := replRN_length_le (r2 :: rest2)
      simp at this ⊢
      omega

theorem replRN_length_lt (cs : List Char) (h : containsRN cs = true) :
    (replRN cs).length < cs.length := by
  match cs with
  | [] => simp [containsRN] at h
  | [c] => simp [containsRN] at h
  | c :: r2 :: rest2 =>
    unfold replRN
    unfold containsRN at h
    by_cases h1 : c = '\r'
    · rw [if_pos h1] at h ⊢
      by_cases h2 : r2 = '\n'
      · rw [if_pos h2]
        have := replRN_length_le rest2
        simp
        omega
      · rw [if_neg h2] at h ⊢
        have := replRN_length_lt (r2 :: rest2) h
        simp at this ⊢
        omega
    · rw [if_neg h1] at h ⊢
      have := replRN_length_lt (r2 :: rest2) h
      simp at this ⊢
      omega

theorem replRN_eq_self (cs : List Char) (h : containsRN cs = false) :
    replRN cs = cs := by
  match cs with
  | [] => simp [replRN]
  | [c] => simp [replRN]
  | c :: r2 :: rest2 =>
    unfold replRN
    unfold containsRN at h
    by_cases h1 : c = '\r'
    · rw [if_pos h1] at h ⊢
      by_cases h2 : r2 = '\n'
      · rw [if_pos h2] at h
        exact absurd h (by simp)
      · rw [if_neg h2] at h ⊢
        rw [replRN_eq_self (r2 :: rest2) h]
    · rw [if_neg h1] at h ⊢
      rw [replRN_eq_self (r2 :: rest2) h]

theorem replRN_eq_self_iff (cs : List Char) :
    replRN cs = cs ↔ containsRN cs = false := by
  constructor
  · intro h
    by_contra hc
    have hc' : containsRN cs = true := by
      cases hcs : containsRN cs
      · exact absurd hcs hc
      · rfl
    have := replRN_length_lt cs hc'
    rw [h] at this
    omega
  · exact replRN_eq_self cs

theorem map_data_splitRN (s : String) :
    (splitRN s).map String.data = splitRNAux s.data := by
  unfold splitRN
  rw [List.map_map]
  have : (String.data ∘ fun l => (⟨l⟩ : String)) = id := by
    funext l
    rfl
  rw [this, List.map_id]

theorem joinLF_splitRN (s : String) : joinLF (splitRN s) = replaceCRLF s := by
  unfold joinLF replaceCRLF
  rw [map_data_splitRN, joinLFC_splitRNAux]

/-! ## Lemmas about slices -/

theorem slice_self {α : Type} (l : List α) (s : Nat) : slice l s s = [] := by
  simp [slice]

theorem slice_snoc {α : Type} (l : List α) (s i : Nat) (hs : s ≤ i)
    (hi : i < l.length) :
    slice l s i ++ [l.get ⟨i, hi⟩] = slice l s (i + 1) := by
  unfold slice
  have h1 : i + 1 - s = (i - s) + 1 := by omega
  rw [h1, List.take_succ]
  have h2 : (l.drop s)[i - s]? = some (l.get ⟨i, hi⟩) := by
    rw [List.getElem?_drop]
    have h3 : s + (i - s) = i := by omega
    rw [h3]
    simp [List.getElem?_eq_getElem hi]
  rw [h2]
  simp

theorem take_append_slice {α : Type} (l : List α) (s j : Nat) (hs : s ≤ j) :
    l.take s ++ slice l s j = l.take j := by
  unfold slice
  have h1 : j = s + (j - s) := by omega
  conv_rhs => rw [h1]
  rw [List.take_add]

theorem slice_append_drop {α : Type} (l : List α) (s i : Nat) (hs : s ≤ i) :
    slice l s i ++ l.drop i = l.drop s := by
  unfold slice
  have h1 : l.drop i = (l.drop s).drop (i - s) := by
    rw [List.drop_drop]
    congr 1
    omega
  rw [h1, List.take_append_drop]

theorem slice_to_length {α : Type} (l : List α) (s : Nat) :
    slice l s l.length = l.drop s := by
  unfold slice
  apply List.take_of_length_le
  rw [List.length_drop]

theorem length_slice {α : Type} (l : List α) (s j : Nat) (hs : s ≤ j)
    (hj : j ≤ l.length) : (slice l s j).length = j - s := by
  unfold slice
  rw [List.length_take, List.length_drop]
  omega

/-! ## The pending-hunk invariant of the diff walk -/

/-- The invariant tying a pending hunk to the walk position `(i, j)`:
the hunk covers exactly the segment of `a` from its `oldStart` to `i`
and the segment of `b` from its `newStart` to `j`. -/
def PendInv {α : Type} (a b : List α) (i j : Nat) (p : Hunk α) : Prop :=
  p.oldStart + p.oldLines = i ∧ p.newStart + p.newLines = j ∧
  p.oldContent = slice a p.oldStart i ∧ p.newContent = slice b p.newStart j

/-- The current line state of the exact applier when the walk is at
`(i, j)`: the already-produced prefix of `b` followed by the untouched
remainder of `a`. -/
def wstate {α : Type} (a b : List α) (i j : Nat) : Option (Hunk α) → List α
  | none => b.take j ++ a.drop i
  | some p => b.take p.newStart ++ a.drop p.oldStart

/-- The running offset of the exact applier matching `wstate`. -/
def woffset {α : Type} (i j : Nat) : Option (Hunk α) → Int
  | none => (j : Int) - (i : Int)
  | some p => (p.newStart : Int) - (p.oldStart : Int)

theorem pendInv_content_lengths {α : Type} {a b : List α} {i j : Nat}
    {q : Hunk α} (hq : PendInv a b i j q) (hi : i ≤ a.length)
    (hj : j ≤ b.length) :
    q.oldContent.length = q.oldLines ∧ q.newContent.length = q.newLines := by
  obtain ⟨h1, h2, h3, h4⟩ := hq
  constructor
  · rw [h3, length_slice a q.oldStart i (by omega) hi]
    omega
  · rw [h4, length_slice b q.newStart j (by omega) hj]
    omega

theorem apply_cons_step {α : Type} [DecidableEq α] (a b : List α)
    (q : Hunk α) (i j : Nat) (hs : List (Hunk α))
    (hi : i ≤ a.length) (hj : j ≤ b.length) (hq : PendInv a b i j q) :
    applyHunksLines (b.take q.newStart ++ a.drop q.oldStart) (q :: hs)
      ((q.newStart : Int) - (q.oldStart : Int))
      = applyHunksLines (b.take j ++ a.drop i) hs ((j : Int) - (i : Int)) := by
  obtain ⟨hcl, hnl⟩ := pendInv_content_lengths hq hi hj
  obtain ⟨h1, h2, h3, h4⟩ := hq
  have hos : q.oldStart ≤ i := by omega
  have hns : q.newStart ≤ j := by omega
  have hlen1 : (b.take q.newStart).length = q.newStart := by
    rw [List.length_take]
    omega
  have hlen : (b.take q.newStart ++ a.drop q.oldStart).length
      = q.newStart + (a.length - q.oldStart) := by
    rw [List.length_append, hlen1, List.length_drop]
  simp only [applyHunksLines]
  have hstart : (q.oldStart : Int) + ((q.newStart : Int) - (q.oldStart : Int))
      = (q.newStart : Int) := by ring
  rw [hstart, hlen]
  rw [if_neg (by push_cast; omega)]
  have hnat : ((q.newStart : Int)).toNat = q.newStart := by
    exact Int.toNat_natCast q.newStart
  rw [hnat]
  have htake : (b.take q.newStart ++ a.drop q.oldStart).take q.newStart
      = b.take q.newStart := List.take_left' hlen1
  have hdrop : (b.take q.newStart ++ a.drop q.oldStart).drop
      (q.newStart + q.oldLines) = a.drop i := by
    rw [← List.drop_drop, List.drop_left' hlen1, List.drop_drop]
    congr 1
  rw [htake, hdrop, h4]
  have hstate : b.take q.newStart ++ slice b q.newStart j ++ a.drop i
      = b.take j ++ a.drop i := by
    rw [take_append_slice b q.newStart j hns]
  have hoff : (q.newStart : Int) - (q.oldStart : Int)
        + ((slice b q.newStart j).length : Int) - (q.oldLines : Int)
      = (j : Int) - (i : Int) := by
    rw [length_slice b q.newStart j hns hj]
    omega
  rw [hstate, hoff]

theorem state_match_step {α : Type} (a b : List α) (i j : Nat)
    (hi : i < a.length) (hj : j < b.length)
    (hab : a.get ⟨i, hi⟩ = b.get ⟨j, hj⟩) :
    b.take j ++ a.drop i = b.take (j + 1) ++ a.drop (i + 1) := by
  have hg : a[i] = b[j] := by simpa [List.get_eq_getElem] using hab
  rw [List.drop_eq_getElem_cons hi, hg, List.take_succ,
    List.getElem?_eq_getElem hj, Option.toList_some, List.append_assoc,
    List.singleton_append]

theorem applyFinish {α : Type} [DecidableEq α] (a b : List α) (i j : Nat)
    (p : Option (Hunk α)) (hi : i ≤ a.length) (hj : j ≤ b.length)
    (hg : ¬(i < a.length ∧ j < b.length))
    (hp : ∀ q, p = some q → PendInv a b i j q) :
    applyHunksLines (wstate a b i j p) (finishWalk a b i j p) (woffset i j p)
      = some b := by
  by_cases hlt : i < a.length ∨ j < b.length
  · have htg : (tailHunk a b i j).oldLines > 0 ∨ (tailHunk a b i j).newLines > 0 := by
      simp only [tailHunk]
      omega
    cases p with
    | none =>
      have hfin : finishWalk a b i j (none : Option (Hunk α))
          = [tailHunk a b i j] := by
        unfold finishWalk
        simp only [if_pos hlt, if_pos htg]
      rw [hfin]
      have hinv : PendInv a b a.length b.length (tailHunk a b i j) := by
        refine ⟨by simp only [tailHunk]; omega, by simp only [tailHunk]; omega,
          by simp [tailHunk, slice_to_length], by simp [tailHunk, slice_to_length]⟩
      have step := apply_cons_step a b (tailHunk a b i j) a.length b.length []
        le_rfl le_rfl hinv
      simp only [wstate, woffset, tailHunk] at step ⊢
      rw [step]
      simp [applyHunksLines]
    | some q =>
      have inv := hp q rfl
      have hadj : q.oldStart + q.oldLines = (tailHunk a b i j).oldStart ∧
          q.newStart + q.newLines = (tailHunk a b i j).newStart := by
        simp only [tailHunk]
        exact ⟨inv.1, inv.2.1⟩
      have hfin : finishWalk a b i j (some q)
          = [mergeTail q (tailHunk a b i j)] := by
        unfold finishWalk
        simp only [if_pos hlt, if_pos htg]
        rw [if_pos hadj]
      rw [hfin]
      have hos : q.oldStart ≤ i := by have := inv.1; omega
      have hns : q.newStart ≤ j := by have := inv.2.1; omega
      have hinv : PendInv a b a.length b.length (mergeTail q (tailHunk a b i j)) := by
        refine ⟨?_, ?_, ?_, ?_⟩
        · simp only [mergeTail, tailHunk]
          have := inv.1
          omega
        · simp only [mergeTail, tailHunk]
          have := inv.2.1
          omega
        · simp only [mergeTail, tailHunk]
          rw [inv.2.2.1, slice_append_drop a q.oldStart i hos,
            slice_to_length]
        · simp only [mergeTail, tailHunk]
          rw [inv.2.2.2, slice_append_drop b q.newStart j hns,
            slice_to_length]
      have step := apply_cons_step a b (mergeTail q (tailHunk a b i j))
        a.length b.length [] le_rfl le_rfl hinv
      simp only [wstate, woffset, mergeTail, tailHunk] at step ⊢
      rw [step]
      simp [applyHunksLines]
  · have hieq : i = a.length := by omega
    have hjeq : j = b.length := by omega
    subst hieq
    subst hjeq
    cases p with
    | none =>
      have hfin : finishWalk a b a.length b.length (none : Option (Hunk α))
          = [] := by
        unfold finishWalk
        rw [if_neg hlt]
      rw [hfin]
      simp [wstate, woffset, applyHunksLines]
    | some q =>
      have inv := hp q rfl
      have hfin : finishWalk a b a.length b.length (some q) = [q] := by
        unfold finishWalk
        rw [if_neg hlt]
      rw [hfin]
      have step := apply_cons_step a b q a.length b.length [] le_rfl le_rfl inv
      simp only [wstate, woffset]
      rw [step]
      simp [applyHunksLines]

theorem applyWalk {α : Type} [DecidableEq α] (a b : List α) (fuel : Nat) :
    ∀ (i j : Nat) (p : Option (Hunk α)),
    i ≤ a.length → j ≤ b.length →
    (a.length - i) + (b.length - j) ≤ fuel →
    (∀ q, p = some q → PendInv a b i j q) →
    applyHunksLines (wstate a b i j p) (walkHunks a b fuel i j p)
      (woffset i j p) = some b := by
  induction fuel with
  | zero =>
    intro i j p hi hj hf hp
    simp only [walkHunks]
    exact applyFinish a b i j p hi hj (by omega) hp
  | succ fuel ih =>
    intro i j p hi hj hf hp
    simp only [walkHunks]
    by_cases hij : i < a.length ∧ j < b.length
    · rw [dif_pos hij]
      by_cases hab : a.get ⟨i, hij.1⟩ = b.get ⟨j, hij.2⟩
      · rw [if_pos hab]
        have hstep : b.take j ++ a.drop i = b.take (j + 1) ++ a.drop (i + 1) :=
          state_match_step a b i j hij.1 hij.2 hab
        have hoffeq : (j : Int) - (i : Int)
            = (((j + 1 : Nat)) : Int) - (((i + 1 : Nat)) : Int) := by
          push_cast
          ring
        cases p with
        | none =>
          simp only [wstate, woffset]
          rw [hstep, hoffeq]
          exact ih (i + 1) (j + 1) none (by omega) (by omega) (by omega)
            (by intro q h; cases h)
        | some q =>
          have inv := hp q rfl
          simp only [wstate, woffset]
          rw [apply_cons_step a b q i j _ (le_of_lt hij.1) (le_of_lt hij.2) inv,
            hstep, hoffeq]
          exact ih (i + 1) (j + 1) none (by omega) (by omega) (by omega)
            (by intro q h; cases h)
      · rw [if_neg hab]
        by_cases hlcs : lcs (a.drop (i + 1)) (b.drop j)
            ≥ lcs (a.drop i) (b.drop (j + 1))
        · rw [if_pos hlcs]
          cases p with
          | none =>
            have inv' : PendInv a b (i + 1) j
                (pushOld (freshPending i j) (a.get ⟨i, hij.1⟩)) := by
              refine ⟨by simp [pushOld, freshPending],
                by simp [pushOld, freshPending], ?_, ?_⟩
              · have hsn := slice_snoc a i i le_rfl hij.1
                rw [slice_self] at hsn
                simp only [pushOld, freshPending, List.nil_append]
                simpa using hsn
              · simp [pushOld, freshPending, slice_self]
            have hw : wstate a b i j (none : Option (Hunk α))
                = wstate a b (i + 1) j
                  (some (pushOld (freshPending i j) (a.get ⟨i, hij.1⟩))) := by
              simp [wstate, pushOld, freshPending]
            have ho : woffset i j (none : Option (Hunk α))
                = woffset (i + 1) j
                  (some (pushOld (freshPending i j) (a.get ⟨i, hij.1⟩))) := by
              simp [woffset, pushOld, freshPending]
            rw [Option.getD_none, hw, ho]
            exact ih (i + 1) j _ (by omega) hj (by omega)
              (by intro q hq; cases hq; exact inv')
          | some q =>
            have inv := hp q rfl
            have hos : q.oldStart ≤ i := by have := inv.1; omega
            have inv' : PendInv a b (i + 1) j (pushOld q (a.get ⟨i, hij.1⟩)) := by
              refine ⟨?_, ?_, ?_, ?_⟩
              · simp only [pushOld]
                have := inv.1
                omega
              · simp only [pushOld]
                exact inv.2.1
              · simp only [pushOld]
                rw [inv.2.2.1]
                exact slice_snoc a q.oldStart i hos hij.1
              · simp only [pushOld]
                exact inv.2.2.2
            have hw : wstate a b i j (some q)
                = wstate a b (i + 1) j (some (pushOld q (a.get ⟨i, hij.1⟩))) := by
              simp [wstate, pushOld]
            have ho : woffset i j (some q)
                = woffset (i + 1) j (some (pushOld q (a.get ⟨i, hij.1⟩))) := by
              simp [woffset, pushOld]
            rw [Option.getD_some, hw, ho]
            exact ih (i + 1) j _ (by omega) hj (by omega)
              (by intro q' hq'; cases hq'; exact inv')
        · rw [if_neg hlcs]
          cases p with
          | none =>
            have inv' : PendInv a b i (j + 1)
                (pushNew (freshPending i j) (b.get ⟨j, hij.2⟩)) := by
              refine ⟨by simp [pushNew, freshPending],
                by simp [pushNew, freshPending], ?_, ?_⟩
              · simp [pushNew, freshPending, slice_self]
              · have hsn := slice_snoc b j j le_rfl hij.2
                rw [slice_self] at hsn
                simp only [pushNew, freshPending, List.nil_append]
                simpa using hsn
            have hw : wstate a b i j (none : Option (Hunk α))
                = wstate a b i (j + 1)
                  (some (pushNew (freshPending i j) (b.get ⟨j, hij.2⟩))) := by
              simp [wstate, pushNew, freshPending]
            have ho : woffset i j (none : Option (Hunk α))
                = woffset i (j + 1)
                  (some (pushNew (freshPending i j) (b.get ⟨j, hij.2⟩))) := by
              simp [woffset, pushNew, freshPending]
            rw [Option.getD_none, hw, ho]
            exact ih i (j + 1) _ hi (by omega) (by omega)
              (by intro q hq; cases hq; exact inv')
          | some q =>
            have inv := hp q rfl
            have hns : q.newStart ≤ j := by have := inv.2.1; omega
            have inv' : PendInv a b i (j + 1) (pushNew q (b.get ⟨j, hij.2⟩)) := by
              refine ⟨?_, ?_, ?_, ?_⟩
              · simp only [pushNew]
                exact inv.1
              · simp only [pushNew]
                have := inv.2.1
                omega
              · simp only [pushNew]
                exact inv.2.2.1
              · simp only [pushNew]
                rw [inv.2.2.2]
                exact slice_snoc b q.newStart j hns hij.2
            have hw : wstate a b i j (some q)
                = wstate a b i (j + 1) (some (pushNew q (b.get ⟨j, hij.2⟩))) := by
              simp [wstate, pushNew]
            have ho : woffset i j (some q)
                = woffset i (j + 1) (some (pushNew q (b.get ⟨j, hij.2⟩))) := by
              simp [woffset, pushNew]
            rw [Option.getD_some, hw, ho]
            exact ih i (j + 1) _ hi (by omega) (by omega)
              (by intro q' hq'; cases hq'; exact inv')
    · rw [dif_neg hij]
      exact applyFinish a b i j p hi hj hij hp

theorem applyHunksLines_map_attachCtx {α : Type} [DecidableEq α]
    (ctxsrc : List α) (hs : List (Hunk α)) :
    ∀ (lines : List α) (off : Int),
    applyHunksLines lines (hs.map (attachCtx ctxsrc)) off
      = applyHunksLines lines hs off := by
  induction hs with
  | nil => intro lines off; rfl
  | cons h t iht =>
    intro lines off
    simp only [List.map_cons, applyHunksLines]
    have e1 : (attachCtx ctxsrc h).oldStart = h.oldStart := rfl
    have e2 : (attachCtx ctxsrc h).oldLines = h.oldLines := rfl
    have e3 : (attachCtx ctxsrc h).newContent = h.newContent := rfl
    rw [e1, e2, e3]
    split
    · rfl
    · exact iht _ _

/-- C1 (amended): applying the hunk sequence `computeHunks A B` to `A`
with the exact applier `applyHunksToBase` always succeeds, and yields `B`
with every CR LF line separator replaced by LF; in particular it yields
exactly `B` whenever `B` contains no CR LF. -/
theorem c1_roundtrip_normalized (A B : String) :
    applyHunksToBase A (computeHunks A B) = some (replaceCRLF B) := by
  unfold applyHunksToBase computeHunks computeHunksL
  rw [applyHunksLines_map_attachCtx]
  have hw := applyWalk (splitRN A) (splitRN B)
    ((splitRN A).length + (splitRN B).length) 0 0 none (by omega) (by omega)
    (by omega) (by intro q h; cases h)
  simp only [wstate, woffset, List.take_zero, List.drop_zero,
    List.nil_append, Nat.cast_zero, sub_zero] at hw
  rw [hw]
  simp [joinLF_splitRN]

theorem walkHunks_self {α : Type} [DecidableEq α] (a : List α) (fuel : Nat) :
    ∀ i, a.length - i ≤ fuel → walkHunks a a fuel i i none = [] := by
  induction fuel with
  | zero =>
    intro i h1
    simp only [walkHunks]
    unfold finishWalk
    rw [if_neg (by omega)]
  | succ fuel ih =>
    intro i h1
    simp only [walkHunks]
    by_cases hij : i < a.length ∧ i < a.length
    · rw [dif_pos hij]
      simp only [if_true]
      exact ih (i + 1) (by omega)
    · rw [dif_neg hij]
      unfold finishWalk
      rw [if_neg (by omega)]

/-- The lower bound on the `oldStart` of every hunk still to be emitted by
the walk: the pending start when a hunk is pending, the cursor otherwise. -/
def lbOf {α : Type} (i : Nat) : Option (Hunk α) → Nat
  | none => i
  | some q => q.oldStart

theorem wfFinish {α : Type} [DecidableEq α] (a b : List α) (i j : Nat)
    (p : Option (Hunk α)) (hi : i ≤ a.length) (hj : j ≤ b.length)
    (_hg : ¬(i < a.length ∧ j < b.length))
    (hp : ∀ q, p = some q → PendInv a b i j q) :
    (∀ h ∈ finishWalk a b i j p,
      h.oldContent.length = h.oldLines ∧ h.newContent.length = h.newLines ∧
      lbOf i p ≤ h.oldStart) ∧
    List.Pairwise (fun g h => g.oldStart + g.oldLines < h.oldStart)
      (finishWalk a b i j p) := by
  by_cases hlt : i < a.length ∨ j < b.length
  · have htg : (tailHunk a b i j).oldLines > 0 ∨ (tailHunk a b i j).newLines > 0 := by
      simp only [tailHunk]
      omega
    cases p with
    | none =>
      have hfin : finishWalk a b i j (none : Option (Hunk α))
          = [tailHunk a b i j] := by
        unfold finishWalk
        simp only [if_pos hlt, if_pos htg]
      rw [hfin]
      refine ⟨?_, by simp⟩
      intro h hm
      rw [List.mem_singleton] at hm
      subst hm
      refine ⟨by simp [tailHunk], by simp [tailHunk], by simp [tailHunk, lbOf]⟩
    | some q =>
      have inv := hp q rfl
      obtain ⟨hcl, hnl⟩ := pendInv_content_lengths inv hi hj
      have hadj : q.oldStart + q.oldLines = (tailHunk a b i j).oldStart ∧
          q.newStart + q.newLines = (tailHunk a b i j).newStart := by
        simp only [tailHunk]
        exact ⟨inv.1, inv.2.1⟩
      have hfin : finishWalk a b i j (some q)
          = [mergeTail q (tailHunk a b i j)] := by
        unfold finishWalk
        simp only [if_pos hlt, if_pos htg]
        rw [if_pos hadj]
      rw [hfin]
      refine ⟨?_, by simp⟩
      intro h hm
      rw [List.mem_singleton] at hm
      subst hm
      refine ⟨?_, ?_, by simp [mergeTail, lbOf]⟩
      · simp only [mergeTail, tailHunk, List.length_append, List.length_drop]
        omega
      · simp only [mergeTail, tailHunk, List.length_append, List.length_drop]
        omega
  · cases p with
    | none =>
      have hfin : finishWalk a b i j (none : Option (Hunk α)) = [] := by
        unfold finishWalk
        rw [if_neg hlt]
      rw [hfin]
      simp
    | some q =>
      have inv := hp q rfl
      obtain ⟨hcl, hnl⟩ := pendInv_content_lengths inv hi hj
      have hfin : finishWalk a b i j (some q) = [q] := by
        unfold finishWalk
        rw [if_neg hlt]
      rw [hfin]
      refine ⟨?_, by simp⟩
      intro h hm
      rw [List.mem_singleton] at hm
      subst hm
      exact ⟨hcl, hnl, le_rfl⟩

theorem wfWalk {α : Type} [DecidableEq α] (a b : List α) (fuel : Nat) :
    ∀ (i j : Nat) (p : Option (Hunk α)),
    i ≤ a.length → j ≤ b.length →
    (a.length - i) + (b.length - j) ≤ fuel →
    (∀ q, p = some q → PendInv a b i j q) →
    (∀ h ∈ walkHunks a b fuel i j p,
      h.oldContent.length = h.oldLines ∧ h.newContent.length = h.newLines ∧
      lbOf i p ≤ h.oldStart) ∧
    List.Pairwise (fun g h => g.oldStart + g.oldLines < h.oldStart)
      (walkHunks a b fuel i j p) := by
  induction fuel with
  | zero =>
    intro i j p hi hj hf hp
    simp only [walkHunks]
    exact wfFinish a b i j p hi hj (by omega) hp
  | succ fuel ih =>
    intro i j p hi hj hf hp
    simp only [walkHunks]
    by_cases hij : i < a.length ∧ j < b.length
    · rw [dif_pos hij]
      by_cases hab : a.get ⟨i, hij.1⟩ = b.get ⟨j, hij.2⟩
      · rw [if_pos hab]
        have rest := ih (i + 1) (j + 1) none (by omega) (by omega) (by omega)
          (by intro q h; cases h)
        cases p with
        | none =>
          refine ⟨?_, rest.2⟩
          intro h hm
          have := rest.1 h hm
          exact ⟨this.1, this.2.1, by have := this.2.2; simp only [lbOf] at this ⊢; omega⟩
        | some q =>
          have inv := hp q rfl
          obtain ⟨hcl, hnl⟩ := pendInv_content_lengths inv
            (le_of_lt hij.1) (le_of_lt hij.2)
          constructor
          · intro h hm
            rw [List.mem_cons] at hm
            cases hm with
            | inl he =>
              subst he
              exact ⟨hcl, hnl, le_rfl⟩
            | inr hm =>
              have := rest.1 h hm
              refine ⟨this.1, this.2.1, ?_⟩
              have hlb := this.2.2
              simp only [lbOf] at hlb ⊢
              have := inv.1
              omega
          · rw [List.pairwise_cons]
            refine ⟨?_, rest.2⟩
            intro h hm
            have hlb := (rest.1 h hm).2.2
            simp only [lbOf] at hlb
            have := inv.1
            omega
      · rw [if_neg hab]
        by_cases hlcs : lcs (a.drop (i + 1)) (b.drop j)
            ≥ lcs (a.drop i) (b.drop (j + 1))
        · rw [if_pos hlcs]
          cases p with
          | none =>
            have inv' : PendInv a b (i + 1) j
                (pushOld (freshPending i j) (a.get ⟨i, hij.1⟩)) := by
              refine ⟨by simp [pushOld, freshPending],
                by simp [pushOld, freshPending], ?_, ?_⟩
              · have hsn := slice_snoc a i i le_rfl hij.1
                rw [slice_self] at hsn
                simp only [pushOld, freshPending, List.nil_append]
                simpa using hsn
              · simp [pushOld, freshPending, slice_self]
            have rest := ih (i + 1) j
              (some (pushOld (freshPending i j) (a.get ⟨i, hij.1⟩)))
              (by omega) hj (by omega) (by intro q hq; cases hq; exact inv')
            rw [Option.getD_none]
            refine ⟨?_, rest.2⟩
            intro h hm
            have := rest.1 h hm
            refine ⟨this.1, this.2.1, ?_⟩
            have hlb := this.2.2
            simp only [lbOf, pushOld, freshPending] at hlb ⊢
            omega
          | some q =>
            have inv := hp q rfl
            have hos : q.oldStart ≤ i := by have := inv.1; omega
            have inv' : PendInv a b (i + 1) j (pushOld q (a.get ⟨i, hij.1⟩)) := by
              refine ⟨?_, ?_, ?_, ?_⟩
              · simp only [pushOld]
                have := inv.1
                omega
              · simp only [pushOld]
                exact inv.2.1
              · simp only [pushOld]
                rw [inv.2.2.1]
                exact slice_snoc a q.oldStart i hos hij.1
              · simp only [pushOld]
                exact inv.2.2.2
            have rest := ih (i + 1) j (some (pushOld q (a.get ⟨i, hij.1⟩)))
              (by omega) hj (by omega) (by intro q' hq'; cases hq'; exact inv')
            rw [Option.getD_some]
            refine ⟨?_, rest.2⟩
            intro h hm
            have := rest.1 h hm
            refine ⟨this.1, this.2.1, ?_⟩
            have hlb := this.2.2
            simp only [lbOf, pushOld] at hlb ⊢
            omega
        · rw [if_neg hlcs]
          cases p with
          | none =>
            have inv' : PendInv a b i (j + 1)
                (pushNew (freshPending i j) (b.get ⟨j, hij.2⟩)) := by
              refine ⟨by simp [pushNew, freshPending],
                by simp [pushNew, freshPending], ?_, ?_⟩
              · simp [pushNew, freshPending, slice_self]
              · have hsn := slice_snoc b j j le_rfl hij.2
                rw [slice_self] at hsn
                simp only [pushNew, freshPending, List.nil_append]
                simpa using hsn
            have rest := ih i (j + 1)
              (some (pushNew (freshPending i j) (b.get ⟨j, hij.2⟩)))
              hi (by omega) (by omega) (by intro q hq; cases hq; exact inv')
            rw [Option.getD_none]
            refine ⟨?_, rest.2⟩
            intro h hm
            have := rest.1 h hm
            refine ⟨this.1, this.2.1, ?_⟩
            have hlb := this.2.2
            simp only [lbOf, pushNew, freshPending] at hlb ⊢
            omega
          | some q =>
            have inv := hp q rfl
            have hns : q.newStart ≤ j := by have := inv.2.1; omega
            have inv' : PendInv a b i (j + 1) (pushNew q (b.get ⟨j, hij.2⟩)) := by
              refine ⟨?_, ?_, ?_, ?_⟩
              · simp only [pushNew]
                exact inv.1
              · simp only [pushNew]
                have := inv.2.1
                omega
              · simp only [pushNew]
                exact inv.2.2.1
              · simp only [pushNew]
                rw [inv.2.2.2]
                exact slice_snoc b q.newStart j hns hij.2
            have rest := ih i (j + 1) (some (pushNew q (b.get ⟨j, hij.2⟩)))
              hi (by omega) (by omega) (by intro q' hq'; cases hq'; exact inv')
            rw [Option.getD_some]
            refine ⟨?_, rest.2⟩
            intro h hm
            have := rest.1 h hm
            refine ⟨this.1, this.2.1, ?_⟩
            have hlb := this.2.2
            simp only [lbOf, pushNew] at hlb ⊢
            omega
    · rw [dif_neg hij]
      exact wfFinish a b i j p hi hj hij hp

/-! ## Lemmas about the fuzzy applier -/

theorem matchAt_length {α : Type} [DecidableEq α] :
    ∀ (n l : List α), matchAt n l = true → n.length ≤ l.length
  | [], _, _ => by simp
  | _ :: _, [], h => by simp [matchAt] at h
  | x :: xs, y :: ys, h => by
    simp only [matchAt, Bool.and_eq_true, decide_eq_true_eq] at h
    have := matchAt_length xs ys h.2
    simp only [List.length_cons]
    omega

theorem subseqSearch_bound {α : Type} [DecidableEq α] (needle : List α) :
    ∀ (rest : List α) (i k : Nat), subseqSearch needle rest i = some k →
    i ≤ k ∧ k - i + needle.length ≤ rest.length := by
  intro rest
  induction rest with
  | nil =>
    intro i k h
    simp [subseqSearch] at h
  | cons c cs ihc =>
    intro i k h
    simp only [subseqSearch] at h
    by_cases hm : matchAt needle (c :: cs) = true
    · rw [if_pos hm] at h
      injection h with h
      subst h
      have := matchAt_length needle (c :: cs) hm
      simp only [List.length_cons] at this ⊢
      omega
    · rw [if_neg hm] at h
      have := ihc (i + 1) k h
      simp only [List.length_cons]
      omega

theorem findSubsequence_bound {α : Type} [DecidableEq α]
    (hay needle : List α) (fromIndex k : Nat) (hne : needle.length > 0)
    (h : findSubsequence hay needle fromIndex = some k) :
    fromIndex ≤ k ∧ k + needle.length ≤ hay.length := by
  unfold findSubsequence at h
  rw [if_neg (by omega)] at h
  have hb := subseqSearch_bound needle (hay.drop fromIndex) fromIndex k h
  rw [List.length_drop] at hb
  omega

theorem applyAnyLines_insertOnly {α : Type} [DecidableEq α]
    (hs : List (Hunk α)) :
    ∀ (lines : List α) (sf : Nat), (∀ g ∈ hs, g.oldLines = 0) →
    ∃ out, applyAnyLines lines hs sf = Except.ok (some out) := by
  induction hs with
  | nil =>
    intro lines sf _
    exact ⟨lines, rfl⟩
  | cons h t iht =>
    intro lines sf hall
    have h0 : h.oldLines = 0 := hall h (List.mem_cons_self h t)
    simp only [applyAnyLines]
    rw [if_neg (by simp [h0])]
    exact iht _ _ (fun g hgm => hall g (List.mem_cons_of_mem _ hgm))

/-- The vacuous-hunk-list case of both appliers: the base is split into
lines and rejoined with LF, so CR LF separators are normalized. -/
theorem apply_nil_eq (base : String) :
    applyHunksToBase base [] = some (joinLF (splitRN base)) ∧
    applyHunksToAnyBase base [] = Except.ok (some (joinLF (splitRN base))) :=
  ⟨rfl, rfl⟩

/-! ## The claims -/

/-- C1 counterexample: when the new text contains a CR LF separator, the
round trip yields the normalized text, not the new text itself. -/
theorem c1_roundtrip_counterexample :
    applyHunksToBase "" (computeHunks "" "x\r\ny") ≠ some "x\r\ny" := by
  decide

/-- C4: every hunk sequence returned by `computeHunks` is well-formed:
content lengths match the recorded line counts, and the hunks are
pairwise non-overlapping in the old text and sorted strictly ascending
by `oldStart`. -/
theorem c4_computeHunks_wellformed (A B : String) :
    (∀ h ∈ computeHunks A B,
      h.oldContent.length = h.oldLines ∧ h.newContent.length = h.newLines) ∧
    List.Pairwise (fun g h => g.oldStart + g.oldLines ≤ h.oldStart ∧
      g.oldStart < h.oldStart) (computeHunks A B) := by
  have hwf := wfWalk (splitRN A) (splitRN B)
    ((splitRN A).length + (splitRN B).length) 0 0 none (by omega) (by omega)
    (by omega) (by intro q h; cases h)
  unfold computeHunks computeHunksL
  constructor
  · intro h hm
    rw [List.mem_map] at hm
    obtain ⟨h0, hm0, rfl⟩ := hm
    exact ⟨(hwf.1 h0 hm0).1, (hwf.1 h0 hm0).2.1⟩
  · rw [List.pairwise_map]
    refine hwf.2.imp ?_
    intro g h hr
    constructor
    · show g.oldStart + g.oldLines ≤ h.oldStart
      omega
    · show g.oldStart < h.oldStart
      omega

/-- C5 (amended): every hunk of `computeHunks` carries as `ctxBeforeOld`
and `ctxAfterOld` at most three lines each, taken from the old text
immediately before `oldStart` and immediately after
`oldStart + oldLines`; the context lines need not be unchanged lines and
can lie inside the replaced region of a neighbouring hunk. -/
theorem c5_ctx_slices (A B : String) :
    ∀ h ∈ computeHunks A B,
      h.ctxBeforeOld = some (slice (splitRN A) (h.oldStart - 3) h.oldStart) ∧
      h.ctxAfterOld = some (slice (splitRN A) (h.oldStart + h.oldLines)
        (min (splitRN A).length (h.oldStart + h.oldLines + 3))) ∧
      (h.ctxBeforeOld.getD []).length ≤ 3 ∧
      (h.ctxAfterOld.getD []).length ≤ 3 := by
  intro h hm
  unfold computeHunks computeHunksL at hm
  rw [List.mem_map] at hm
  obtain ⟨h0, hm0, rfl⟩ := hm
  refine ⟨rfl, rfl, ?_, ?_⟩
  · simp only [attachCtx, Option.getD_some, slice, List.length_take,
      List.length_drop]
    omega
  · simp only [attachCtx, Option.getD_some, slice, List.length_take,
      List.length_drop]
    omega

/-- C5 counterexample: a context line of one hunk can be part of another
hunk's replaced region, so not every context line is an unchanged line. -/
theorem c5_ctx_unchanged_counterexample :
    ¬ (∀ h ∈ computeHunks "a\nb\nc\nd" "x\nc\ny",
        ∀ l ∈ h.ctxBeforeOld.getD [] ++ h.ctxAfterOld.getD [],
        ∀ h2 ∈ computeHunks "a\nb\nc\nd" "x\nc\ny", l ∉ h2.oldContent) := by
  decide

/-- C9: diffing a text against itself yields the empty hunk sequence. -/
theorem c9_self_diff_empty (A : String) : computeHunks A A = [] := by
  unfold computeHunks computeHunksL
  rw [walkHunks_self (splitRN A)
    ((splitRN A).length + (splitRN A).length) 0 (by omega)]
  rfl

/-- C10: applying the empty hunk sequence with either applier returns the
base with every CR LF replaced by LF, and the result equals the input
exactly when the input contains no CR LF. -/
theorem c10_empty_hunks_normalize (base : String) :
    applyHunksToBase base [] = some (replaceCRLF base) ∧
    applyHunksToAnyBase base [] = Except.ok (some (replaceCRLF base)) ∧
    (applyHunksToBase base [] = some base ↔ containsCRLF base = false) := by
  obtain ⟨d⟩ := base
  have h1 : applyHunksToBase ⟨d⟩ [] = some (joinLF (splitRN ⟨d⟩)) := rfl
  have h2 : applyHunksToAnyBase ⟨d⟩ []
      = Except.ok (some (joinLF (splitRN ⟨d⟩))) := rfl
  have hj := joinLF_splitRN (⟨d⟩ : String)
  refine ⟨by rw [h1, hj], by rw [h2, hj], ?_⟩
  rw [h1, hj]
  unfold replaceCRLF containsCRLF
  simp only [Option.some.injEq]
  rw [String.ext_iff]
  exact replRN_eq_self_iff d

/-- C3 (code bug): a hunk with `oldLines > 0` whose `oldContent` is not
found, whose `ctxBeforeOld` is absent, and whose `ctxAfterOld` is found,
makes the fuzzy applier crash instead of returning `none`. -/
theorem c3_crash_on_missing_ctxBeforeOld :
    applyHunksToAnyBase "c\nz"
      [{ oldStart := 0, oldLines := 1, newStart := 0, newLines := 0,
         oldContent := ["x"], newContent := [],
         ctxBeforeOld := none, ctxAfterOld := some ["c"] }]
      = Except.error () := by
  rfl

/-- C6 counterexample: for a pure insertion whose `ctxBeforeOld` is
present but not found while `ctxAfterOld` is present and found, the code
does not insert before the `ctxAfterOld` occurrence; it falls back to the
hunk's `newStart`. -/
theorem c6_ctxAfter_unused_counterexample :
    applyHunksToAnyBase "a\nb"
      [{ oldStart := 0, oldLines := 0, newStart := 2, newLines := 1,
         oldContent := [], newContent := ["N"],
         ctxBeforeOld := some ["X"], ctxAfterOld := some ["b"] }]
      = Except.ok (some "a\nb\nN") ∧
    findSubsequence (splitRN "a\nb") ["b"] 0 = some 1 ∧
    "a\nb\nN" ≠ "a\nN\nb" := by
  refine ⟨rfl, rfl, by decide⟩

/-- C6 (amended): an insertion-only hunk (`oldLines = 0`) never makes the
fuzzy applier fail or crash.  Its `newContent` is placed immediately
after a found occurrence of a present nonempty `ctxBeforeOld`; when
`ctxBeforeOld` is present and nonempty but not found, placement falls
back to the original `newStart` clamped to the current text length and
`ctxAfterOld` is not consulted; when `ctxBeforeOld` is absent or empty,
the content is placed immediately before a found occurrence of a present
nonempty `ctxAfterOld`; in all remaining cases it is placed at `newStart`
clamped to the current text length. -/
theorem c6_insertion_placement (base : String) (h : Hunk String)
    (hs : List (Hunk String)) (h0 : h.oldLines = 0)
    (hall : ∀ g ∈ hs, g.oldLines = 0) :
    (∃ out, applyHunksToAnyBase base hs = Except.ok (some out)) ∧
    (∀ cb bi, h.ctxBeforeOld = some cb → cb.length > 0 →
      findSubsequence (splitRN base) cb 0 = some bi →
      applyHunksToAnyBase base [h] = Except.ok (some (joinLF
        ((splitRN base).take (bi + cb.length) ++ h.newContent ++
          (splitRN base).drop (bi + cb.length))))) ∧
    (∀ cb, h.ctxBeforeOld = some cb → cb.length > 0 →
      findSubsequence (splitRN base) cb 0 = none →
      applyHunksToAnyBase base [h] = Except.ok (some (joinLF
        ((splitRN base).take (min h.newStart (splitRN base).length) ++
          h.newContent ++
          (splitRN base).drop (min h.newStart (splitRN base).length))))) ∧
    (∀ ca ai, (h.ctxBeforeOld = none ∨ h.ctxBeforeOld = some []) →
      h.ctxAfterOld = some ca → ca.length > 0 →
      findSubsequence (splitRN base) ca 0 = some ai →
      applyHunksToAnyBase base [h] = Except.ok (some (joinLF
        ((splitRN base).take ai ++ h.newContent ++
          (splitRN base).drop ai)))) ∧
    ((h.ctxBeforeOld = none ∨ h.ctxBeforeOld = some []) →
      (∀ ca, h.ctxAfterOld = some ca → ca.length > 0 →
        findSubsequence (splitRN base) ca 0 = none) →
      applyHunksToAnyBase base [h] = Except.ok (some (joinLF
        ((splitRN base).take (min h.newStart (splitRN base).length) ++
          h.newContent ++
          (splitRN base).drop (min h.newStart (splitRN base).length))))) := by
  have hbranch : ¬(h.oldLines > 0 ∧ h.oldContent.length > 0) := by simp [h0]
  have key : ∀ ins : Nat, insertPoint (splitRN base) h 0 = ins →
      applyHunksToAnyBase base [h] = Except.ok (some (joinLF
        ((splitRN base).take (min ins (splitRN base).length) ++ h.newContent
          ++ (splitRN base).drop (min ins (splitRN base).length)))) := by
    intro ins hins
    unfold applyHunksToAnyBase
    simp only [applyAnyLines]
    rw [if_neg hbranch, hins]
    have hmin : (if ins > (splitRN base).length then (splitRN base).length
        else ins) = min ins (splitRN base).length := by
      by_cases hc : ins > (splitRN base).length
      · rw [if_pos hc]
        omega
      · rw [if_neg hc]
        omega
    rw [hmin]
    rfl
  refine ⟨?_, ?_, ?_, ?_, ?_⟩
  · obtain ⟨out, hout⟩ := applyAnyLines_insertOnly hs (splitRN base) 0 hall
    refine ⟨joinLF out, ?_⟩
    unfold applyHunksToAnyBase
    rw [hout]
    rfl
  · intro cb bi hcb hne hfound
    have hip : insertPoint (splitRN base) h 0 = bi + cb.length := by
      simp only [insertPoint, hcb]
      rw [if_pos hne, Nat.zero_sub, hfound]
    have hb := findSubsequence_bound (splitRN base) cb 0 bi hne hfound
    rw [key (bi + cb.length) hip]
    have hmin2 : min (bi + cb.length) (splitRN base).length
        = bi + cb.length := by omega
    rw [hmin2]
  · intro cb hcb hne hfound
    have hip : insertPoint (splitRN base) h 0 = h.newStart := by
      simp only [insertPoint, hcb]
      rw [if_pos hne, Nat.zero_sub, hfound]
    exact key h.newStart hip
  · intro ca ai hbe hca hnea hfound
    have hip : insertPoint (splitRN base) h 0 = ai := by
      cases hbe with
      | inl hnone =>
        simp only [insertPoint, hnone, hca]
        rw [if_pos hnea, hfound]
      | inr hemp =>
        simp only [insertPoint, hemp, hca]
        rw [if_neg (by simp), if_pos hnea, hfound]
    have hb := findSubsequence_bound (splitRN base) ca 0 ai hnea hfound
    rw [key ai hip]
    have hmin2 : min ai (splitRN base).length = ai := by omega
    rw [hmin2]
  · intro hbe hnotfound
    have hip : insertPoint (splitRN base) h 0 = h.newStart := by
      cases hbe with
      | inl hnone =>
        cases hao : h.ctxAfterOld with
        | none => simp only [insertPoint, hnone, hao]
        | some ca =>
          by_cases hlen : ca.length > 0
          · simp only [insertPoint, hnone, hao, if_pos hlen,
              hnotfound ca hao hlen]
          · simp only [insertPoint, hnone, hao, if_neg hlen]
      | inr hemp =>
        cases hao : h.ctxAfterOld with
        | none => simp only [insertPoint, hemp, hao, if_neg (by simp :
            ¬(List.length ([] : List String) > 0))]
        | some ca =>
          by_cases hlen : ca.length > 0
          · simp only [insertPoint, hemp, hao, if_neg (by simp :
              ¬(List.length ([] : List String) > 0)), if_pos hlen,
              hnotfound ca hao hlen]
          · simp only [insertPoint, hemp, hao, if_neg (by simp :
              ¬(List.length ([] : List String) > 0)), if_neg hlen]
    exact key h.newStart hip

/-- C6 witness: a concrete insertion placed right after a found
`ctxBeforeOld` occurrence. -/
theorem c6_insertion_placement_witness :
    applyHunksToAnyBase "a\nb"
      [{ oldStart := 0, oldLines := 0, newStart := 2, newLines := 1,
         oldContent := [], newContent := ["N"],
         ctxBeforeOld := some ["a"], ctxAfterOld := some ["b"] }]
      = Except.ok (some "a\nN\nb") := by
  have hinst := (c6_insertion_placement "a\nb"
    { oldStart := 0, oldLines := 0, newStart := 2, newLines := 1,
      oldContent := [], newContent := ["N"],
      ctxBeforeOld := some ["a"], ctxAfterOld := some ["b"] }
    [] rfl (by simp)).2.1 ["a"] 0 rfl (by decide) (by decide)
  rw [hinst]
  exact rfl

/-- C4 witness: the single hunk of a concrete diff has matching content
lengths. -/
theorem c4_computeHunks_wellformed_witness :
    (["a"] : List String).length = 1 ∧ (["b"] : List String).length = 1 :=
  (c4_computeHunks_wellformed "a" "b").1
    { oldStart := 0, oldLines := 1, newStart := 0, newLines := 1,
      oldContent := ["a"], newContent := ["b"],
      ctxBeforeOld := some [], ctxAfterOld := some [] } (by decide)

/-- C5 witness: the context fields of the single hunk of a concrete diff
are the expected slices of the old text. -/
theorem c5_ctx_slices_witness :
    (some [] : Option (List String)) = some (slice (splitRN "a") 0 0) ∧
    (some [] : Option (List String))
      = some (slice (splitRN "a") 1 (min (splitRN "a").length 4)) ∧
    ((some [] : Option (List String)).getD []).length ≤ 3 ∧
    ((some [] : Option (List String)).getD []).length ≤ 3 :=
  c5_ctx_slices "a" "b"
    { oldStart := 0, oldLines := 1, newStart := 0, newLines := 1,
      oldContent := ["a"], newContent := ["b"],
      ctxBeforeOld := some [], ctxAfterOld := some [] } (by decide)

/-- C2 counterexample: with no registry snapshot and a single commit
entry whose `baseHash` does not match, the writer returns unapplied even
though fuzzy-applying that entry's hunks would succeed and produce a
merged result, so the most recent entry is not fuzzy-applied. -/
theorem c2_no_fuzzy_counterexample :
    tryApplyCommitsToGenerated id []
      [{ createdAt := 1, file := "f",
         record :=
           { file := "f", status := "modified", format := some "hunks-v1",
             baseHash := some "zzz",
             hunks := some
               [{ oldStart := 0, oldLines := 1, newStart := 0,
                  newLines := 1, oldContent := ["a"], newContent := ["b"],
                  ctxBeforeOld := some [], ctxAfterOld := some [] }] } }]
      "f" "a" = Except.ok (false, "a") ∧
    applyHunksToAnyBase "a"
      [{ oldStart := 0, oldLines := 1, newStart := 0, newLines := 1,
         oldContent := ["a"], newContent := ["b"],
         ctxBeforeOld := some [], ctxAfterOld := some [] }]
      = Except.ok (some "b") :=
  ⟨rfl, rfl⟩

/-- C2 (amended): whenever the registry holds no usable cached hunk
snapshot for the path (no entry, or an entry without a hunks-format
snapshot), the writer scans the commit tuples touching the path with
status modified: it exact-applies the most recent hunks-format entry
whose `baseHash` matches the candidate hash when that application
succeeds; when no hunks-format candidate applies it replays the most
recent legacy line-diff entry whose `newHash` matches; when neither
produces a result it returns unapplied; and in every case the outcome is
unapplied, an exact application of a commit entry, or a legacy replay of
a commit entry — commit hunks are never fuzzy-applied. -/
theorem c2_commit_fallback (hash : String → String)
    (reg : List (String × RegEntry)) (commits : List CommitTuple)
    (rel gen : String)
    (hsnap : ∀ e, regLookup reg rel = some e →
      ¬(e.diffFormat = some "hunks-v1" ∧ e.diffHunks.isSome)) :
    (∀ latest c,
      ((commits.filter (fun r => r.file = rel ∧
          r.record.status = "modified")).filter
        (fun r => r.record.format = some "hunks-v1" ∧
          r.record.baseHash = some (hash gen) ∧
          r.record.hunks.isSome)).getLast? = some latest →
      applyHunksToBase gen (latest.record.hunks.getD []) = some c →
      tryApplyCommitsToGenerated hash reg commits rel gen
        = Except.ok (true, c)) ∧
    (∀ latest c,
      (((commits.filter (fun r => r.file = rel ∧
            r.record.status = "modified")).filter
          (fun r => r.record.format = some "hunks-v1" ∧
            r.record.baseHash = some (hash gen) ∧
            r.record.hunks.isSome)) = [] ∨
        (∃ l, ((commits.filter (fun r => r.file = rel ∧
            r.record.status = "modified")).filter
          (fun r => r.record.format = some "hunks-v1" ∧
            r.record.baseHash = some (hash gen) ∧
            r.record.hunks.isSome)).getLast? = some l ∧
          applyHunksToBase gen (l.record.hunks.getD []) = none)) →
      ((commits.filter (fun r => r.file = rel ∧
          r.record.status = "modified")).filter
        (fun r => r.record.newHash = some (hash gen) ∧
          r.record.diff.isSome)).getLast? = some latest →
      applyDiffToBase gen (latest.record.diff.getD "") = some c →
      tryApplyCommitsToGenerated hash reg commits rel gen
        = Except.ok (true, c)) ∧
    ((((commits.filter (fun r => r.file = rel ∧
            r.record.status = "modified")).filter
          (fun r => r.record.format = some "hunks-v1" ∧
            r.record.baseHash = some (hash gen) ∧
            r.record.hunks.isSome)) = [] ∨
        (∃ l, ((commits.filter (fun r => r.file = rel ∧
            r.record.status = "modified")).filter
          (fun r => r.record.format = some "hunks-v1" ∧
            r.record.baseHash = some (hash gen) ∧
            r.record.hunks.isSome)).getLast? = some l ∧
          applyHunksToBase gen (l.record.hunks.getD []) = none)) →
      (((commits.filter (fun r => r.file = rel ∧
            r.record.status = "modified")).filter
          (fun r => r.record.newHash = some (hash gen) ∧
            r.record.diff.isSome)) = [] ∨
        (∃ l, ((commits.filter (fun r => r.file = rel ∧
            r.record.status = "modified")).filter
          (fun r => r.record.newHash = some (hash gen) ∧
            r.record.diff.isSome)).getLast? = some l ∧
          applyDiffToBase gen (l.record.diff.getD "") = none)) →
      tryApplyCommitsToGenerated hash reg commits rel gen
        = Except.ok (false, gen)) ∧
    (tryApplyCommitsToGenerated hash reg commits rel gen
        = Except.ok (false, gen) ∨
      (∃ l c, ((commits.filter (fun r => r.file = rel ∧
            r.record.status = "modified")).filter
          (fun r => r.record.format = some "hunks-v1" ∧
            r.record.baseHash = some (hash gen) ∧
            r.record.hunks.isSome)).getLast? = some l ∧
        applyHunksToBase gen (l.record.hunks.getD []) = some c ∧
        tryApplyCommitsToGenerated hash reg commits rel gen
          = Except.ok (true, c)) ∨
      (∃ l c, ((commits.filter (fun r => r.file = rel ∧
            r.record.status = "modified")).filter
          (fun r => r.record.newHash = some (hash gen) ∧
            r.record.diff.isSome)).getLast? = some l ∧
        applyDiffToBase gen (l.record.diff.getD "") = some c ∧
        tryApplyCommitsToGenerated hash reg commits rel gen
          = Except.ok (true, c))) := by
  have hred : tryApplyCommitsToGenerated hash reg commits rel gen
      = Except.ok (commitFallback hash commits rel gen) := by
    simp only [tryApplyCommitsToGenerated]
    cases hreg : regLookup reg rel with
    | none => simp only [hreg]
    | some e =>
      have hcond := hsnap e hreg
      simp only [hreg, if_neg hcond]
  have p1 : ∀ latest c,
      ((commits.filter (fun r => r.file = rel ∧
          r.record.status = "modified")).filter
        (fun r => r.record.format = some "hunks-v1" ∧
          r.record.baseHash = some (hash gen) ∧
          r.record.hunks.isSome)).getLast? = some latest →
      applyHunksToBase gen (latest.record.hunks.getD []) = some c →
      tryApplyCommitsToGenerated hash reg commits rel gen
        = Except.ok (true, c) := by
    intro latest c hlast happly
    have hne : ¬((commits.filter (fun r => r.file = rel ∧
        r.record.status = "modified")).isEmpty = true) := by
      intro hemp
      rw [List.isEmpty_iff] at hemp
      rw [hemp] at hlast
      simp at hlast
    rw [hred]
    simp only [commitFallback]
    rw [if_neg hne]
    simp only [hlast, happly]
  have p2 : ∀ latest c,
      (((commits.filter (fun r => r.file = rel ∧
            r.record.status = "modified")).filter
          (fun r => r.record.format = some "hunks-v1" ∧
            r.record.baseHash = some (hash gen) ∧
            r.record.hunks.isSome)) = [] ∨
        (∃ l, ((commits.filter (fun r => r.file = rel ∧
            r.record.status = "modified")).filter
          (fun r => r.record.format = some "hunks-v1" ∧
            r.record.baseHash = some (hash gen) ∧
            r.record.hunks.isSome)).getLast? = some l ∧
          applyHunksToBase gen (l.record.hunks.getD []) = none)) →
      ((commits.filter (fun r => r.file = rel ∧
          r.record.status = "modified")).filter
        (fun r => r.record.newHash = some (hash gen) ∧
          r.record.diff.isSome)).getLast? = some latest →
      applyDiffToBase gen (latest.record.diff.getD "") = some c →
      tryApplyCommitsToGenerated hash reg commits rel gen
        = Except.ok (true, c) := by
    intro latest c hvh hleglast happly
    have hlegne : (commits.filter (fun r => r.file = rel ∧
        r.record.status = "modified")).filter
        (fun r => r.record.newHash = some (hash gen) ∧
          r.record.diff.isSome) ≠ [] := by
      intro h0
      rw [h0] at hleglast
      simp at hleglast
    have hne : ¬((commits.filter (fun r => r.file = rel ∧
        r.record.status = "modified")).isEmpty = true) := by
      intro hemp
      rw [List.isEmpty_iff] at hemp
      rw [hemp] at hlegne
      simp at hlegne
    rw [hred]
    simp only [commitFallback]
    rw [if_neg hne]
    cases hvh with
    | inl hhc => simp only [hhc, List.getLast?_nil, hleglast, happly]
    | inr hex =>
      obtain ⟨l, hl, happnone⟩ := hex
      simp only [hl, happnone, hleglast, happly]
  have p3 :
      (((commits.filter (fun r => r.file = rel ∧
            r.record.status = "modified")).filter
          (fun r => r.record.format = some "hunks-v1" ∧
            r.record.baseHash = some (hash gen) ∧
            r.record.hunks.isSome)) = [] ∨
        (∃ l, ((commits.filter (fun r => r.file = rel ∧
            r.record.status = "modified")).filter
          (fun r => r.record.format = some "hunks-v1" ∧
            r.record.baseHash = some (hash gen) ∧
            r.record.hunks.isSome)).getLast? = some l ∧
          applyHunksToBase gen (l.record.hunks.getD []) = none)) →
      (((commits.filter (fun r => r.file = rel ∧
            r.record.status = "modified")).filter
          (fun r => r.record.newHash = some (hash gen) ∧
            r.record.diff.isSome)) = [] ∨
        (∃ l, ((commits.filter (fun r => r.file = rel ∧
            r.record.status = "modified")).filter
          (fun r => r.record.newHash = some (hash gen) ∧
            r.record.diff.isSome)).getLast? = some l ∧
          applyDiffToBase gen (l.record.diff.getD "") = none)) →
      tryApplyCommitsToGenerated hash reg commits rel gen
        = Except.ok (false, gen) := by
    intro hvh hvl
    rw [hred]
    simp only [commitFallback]
    by_cases hemp : (commits.filter (fun r => r.file = rel ∧
        r.record.status = "modified")).isEmpty = true
    · rw [if_pos hemp]
    · rw [if_neg hemp]
      cases hvh with
      | inl hhc =>
        cases hvl with
        | inl hleg => simp only [hhc, hleg, List.getLast?_nil]
        | inr hexl =>
          obtain ⟨l2, hl2, hnone2⟩ := hexl
          simp only [hhc, List.getLast?_nil, hl2, hnone2]
      | inr hex =>
        obtain ⟨l, hl, hnone⟩ := hex
        cases hvl with
        | inl hleg => simp only [hl, hnone, hleg, List.getLast?_nil]
        | inr hexl =>
          obtain ⟨l2, hl2, hnone2⟩ := hexl
          simp only [hl, hnone, hl2, hnone2]
  refine ⟨p1, p2, p3, ?_⟩
  cases hl : ((commits.filter (fun r => r.file = rel ∧
      r.record.status = "modified")).filter
      (fun r => r.record.format = some "hunks-v1" ∧
        r.record.baseHash = some (hash gen) ∧
        r.record.hunks.isSome)).getLast? with
  | some l =>
    cases happ : applyHunksToBase gen (l.record.hunks.getD []) with
    | some c => exact Or.inr (Or.inl ⟨l, c, rfl, happ, p1 l c hl happ⟩)
    | none =>
      cases hleg : ((commits.filter (fun r => r.file = rel ∧
          r.record.status = "modified")).filter
          (fun r => r.record.newHash = some (hash gen) ∧
            r.record.diff.isSome)).getLast? with
      | some l2 =>
        cases happ2 : applyDiffToBase gen (l2.record.diff.getD "") with
        | some c =>
          exact Or.inr (Or.inr ⟨l2, c, rfl, happ2,
            p2 l2 c (Or.inr ⟨l, hl, happ⟩) hleg happ2⟩)
        | none =>
          exact Or.inl (p3 (Or.inr ⟨l, hl, happ⟩)
            (Or.inr ⟨l2, hleg, happ2⟩))
      | none =>
        exact Or.inl (p3 (Or.inr ⟨l, hl, happ⟩)
          (Or.inl (List.getLast?_eq_none_iff.mp hleg)))
  | none =>
    have hhc := List.getLast?_eq_none_iff.mp hl
    cases hleg : ((commits.filter (fun r => r.file = rel ∧
        r.record.status = "modified")).filter
        (fun r => r.record.newHash = some (hash gen) ∧
          r.record.diff.isSome)).getLast? with
    | some l2 =>
      cases happ2 : applyDiffToBase gen (l2.record.diff.getD "") with
      | some c =>
        exact Or.inr (Or.inr ⟨l2, c, rfl, happ2,
          p2 l2 c (Or.inl hhc) hleg happ2⟩)
      | none =>
        exact Or.inl (p3 (Or.inl hhc) (Or.inr ⟨l2, hleg, happ2⟩))
    | none =>
      exact Or.inl (p3 (Or.inl hhc)
        (Or.inl (List.getLast?_eq_none_iff.mp hleg)))

/-- C2 witness: a matching hunks-format entry is exact-applied; a commit
log holding only a legacy line-diff entry with matching newHash has its
diff replayed; and with no commit entries the writer returns
unapplied. -/
theorem c2_commit_fallback_witness :
    tryApplyCommitsToGenerated id []
      [{ createdAt := 1, file := "f",
         record :=
           { file := "f", status := "modified", format := some "hunks-v1",
             baseHash := some "a",
             hunks := some
               [{ oldStart := 0, oldLines := 1, newStart := 0,
                  newLines := 1, oldContent := ["a"], newContent := ["b"],
                  ctxBeforeOld := some [], ctxAfterOld := some [] }] } }]
      "f" "a" = Except.ok (true, "b") ∧
    tryApplyCommitsToGenerated id []
      [{ createdAt := 1, file := "f",
         record :=
           { file := "f", status := "modified", newHash := some "a",
             diff := some "+ a\n- b" } }]
      "f" "a" = Except.ok (true, "b") ∧
    tryApplyCommitsToGenerated id [] [] "f" "a"
      = Except.ok (false, "a") := by
  refine ⟨?_, ?_, ?_⟩
  · exact (c2_commit_fallback id []
      [{ createdAt := 1, file := "f",
         record :=
           { file := "f", status := "modified", format := some "hunks-v1",
             baseHash := some "a",
             hunks := some
               [{ oldStart := 0, oldLines := 1, newStart := 0,
                  newLines := 1, oldContent := ["a"], newContent := ["b"],
                  ctxBeforeOld := some [], ctxAfterOld := some [] }] } }]
      "f" "a" (by intro e he; simp [regLookup] at he)).1
      { createdAt := 1, file := "f",
        record :=
          { file := "f", status := "modified", format := some "hunks-v1",
            baseHash := some "a",
            hunks := some
              [{ oldStart := 0, oldLines := 1, newStart := 0,
                 newLines := 1, oldContent := ["a"], newContent := ["b"],
                 ctxBeforeOld := some [], ctxAfterOld := some [] }] } }
      "b" (by decide) rfl
  · exact (c2_commit_fallback id []
      [{ createdAt := 1, file := "f",
         record :=
           { file := "f", status := "modified", newHash := some "a",
             diff := some "+ a\n- b" } }]
      "f" "a" (by intro e he; simp [regLookup] at he)).2.1
      { createdAt := 1, file := "f",
        record :=
          { file := "f", status := "modified", newHash := some "a",
            diff := some "+ a\n- b" } }
      "b" (Or.inl (by decide)) (by decide) rfl
  · exact (c2_commit_fallback id [] [] "f" "a"
      (by intro e he; simp [regLookup] at he)).2.2.1
      (Or.inl rfl) (Or.inl rfl)

/-- C7: when the target path exists and the hash of its on-disk content
equals the hash of the candidate content, the writer returns `unchanged`
and leaves the whole world (file and registry) untouched. -/
theorem c7_unchanged_no_effect (hash : String → String) (w : World)
    (rel contents : String) (force skipOnConflict promptAnswer : Bool)
    (now current : String) (hd : w.onDisk = some current)
    (hh : hash current = hash contents) :
    writeGeneratedFile hash w rel contents force skipOnConflict promptAnswer
      now = Except.ok (WriteResult.unchanged, w) := by
  obtain ⟨od, reg, com⟩ := w
  have hd2 : od = some current := hd
  subst hd2
  simp only [writeGeneratedFile]
  rw [if_pos hh]

/-- C7 witness: a concrete unchanged write. -/
theorem c7_unchanged_no_effect_witness :
    writeGeneratedFile (fun s => s)
      { onDisk := some "x", registry := [], commits := [] } "f" "x" false
      false false "t"
      = Except.ok (WriteResult.unchanged,
        { onDisk := some "x", registry := [], commits := [] }) :=
  c7_unchanged_no_effect (fun s => s)
    { onDisk := some "x", registry := [], commits := [] } "f" "x" false
    false false "t" "x" rfl rfl

instance : IsTotal CommitTuple (fun x y => x.createdAt ≤ y.createdAt) :=
  ⟨fun x y => Nat.le_total x.createdAt y.createdAt⟩

instance : IsTrans CommitTuple (fun x y => x.createdAt ≤ y.createdAt) :=
  ⟨fun _ _ _ hxy hyz => Nat.le_trans hxy hyz⟩

/-- C8: `loadAllCommitRecords` returns a permutation of the flattened
per-file entries of the parseable records, sorted ascending by
`createdAt`, and an unparseable record is skipped without affecting the
rest of the scan. -/
theorem c8_loadAll_sorted_skip (raw : List (Option StoredCommitRec)) :
    (loadAllCommitRecords raw).Perm
      ((raw.filterMap id).flatMap (fun d => d.files.map
        (fun rec => { createdAt := d.createdAt.getD 0, file := rec.file,
                      record := rec : CommitTuple }))) ∧
    List.Sorted (fun x y => x.createdAt ≤ y.createdAt)
      (loadAllCommitRecords raw) ∧
    ∀ xs ys, loadAllCommitRecords (xs ++ none :: ys)
      = loadAllCommitRecords (xs ++ ys) := by
  refine ⟨?_, ?_, ?_⟩
  · unfold loadAllCommitRecords
    exact List.perm_insertionSort _ _
  · unfold loadAllCommitRecords
    exact List.sorted_insertionSort _ _
  · intro xs ys
    unfold loadAllCommitRecords
    simp [List.filterMap_append]

end Gen
